import Mathlib

/-!
# Verification of `clusterpluk` (src/clusterpluk/src/main.rs)

Shallow embedding of the program that picks one representative read pair
per cluster of a CD-HIT style `.clstr` file.

Modelling conventions:
* A FASTQ record is a structure with identifier, sequence and quality,
  each a list (bytes as `Nat`, characters as `Char`).
* The two FASTQ indices (`HashMap<String, Record>` in the source) are
  modelled as functions `List Char → Option FastqRecord`.
* The per-base Phred error transform `10^(-(q-33)/10)` is an `f64` in
  the source; it is modelled as an abstract parameter `E : Nat → ℚ`,
  since the float values are not exactly representable.  All claims
  about the selector depend only on comparisons of the resulting
  scores, which the theorems take as hypotheses.
* `HashMap` iteration order is nondeterministic in the source
  (`counts.into_iter()`); it is modelled by an explicit parameter
  `order : List (List Nat)` that enumerates the distinct combined
  sequences (the map's keys) in some arbitrary order (`ValidOrder`).
* A `panic!`/`unwrap` failure in the source is modelled by `none`.
-/

/-- A FASTQ record: identifier, base sequence, per-base quality bytes. -/
structure FastqRecord where
  id : List Char
  seq : List Nat
  qual : List Nat
deriving DecidableEq, Repr

/-- Default record used only as the `getD` fallback (never selected). -/
def defaultPair : FastqRecord × FastqRecord :=
  (⟨[], [], []⟩, ⟨[], [], []⟩)

/-- `r1.seq().iter().chain(r2.seq())`: R1 sequence followed by R2 sequence. -/
def combinedSeq (p : FastqRecord × FastqRecord) : List Nat :=
  p.1.seq ++ p.2.seq

/-- `r1.qual().iter().chain(r2.qual())`: R1 quality followed by R2 quality. -/
def combinedQual (p : FastqRecord × FastqRecord) : List Nat :=
  p.1.qual ++ p.2.qual

/-- `avg_error`: mean of the per-base error probabilities of the combined
quality string, with the Phred transform abstracted as `E`. -/
def avgError (E : Nat → ℚ) (p : FastqRecord × FastqRecord) : ℚ :=
  (((combinedQual p).map E).sum) / ((combinedQual p).length : ℚ)

/-! ## The regex `.*>(.*)\.\.\.`

Rust's `regex` crate uses leftmost-first (Perl-like) match semantics:
the greedy `.*>` backtracks from the right, so the `>` chosen is the
*last* `>` that still has `...` somewhere after it, and the greedy
capture `(.*)` then extends to the *last* occurrence of `...` after
that `>`. -/

/-- Does the list start with three literal dots? -/
def startsDots3 : List Char → Bool
  | '.' :: '.' :: '.' :: _ => true
  | _ => false

/-- Is there an occurrence of `...` anywhere in the list? -/
def hasEllipsis : List Char → Bool
  | [] => false
  | c :: t => startsDots3 (c :: t) || hasEllipsis t

/-- The prefix of `s` up to the *last* occurrence of `...`
(the greedy capture `(.*)` followed by `\.\.\.`), if any. -/
def lastEllipsisCapture : List Char → Option (List Char)
  | [] => none
  | c :: t =>
    match lastEllipsisCapture t with
    | some cap => some (c :: cap)
    | none => if startsDots3 (c :: t) then some [] else none

/-- The capture of `.*>(.*)\.\.\.` on a line: the characters between the
last `>` that is still followed by `...`, and the last `...` after it. -/
def extractId : List Char → Option (List Char)
  | [] => none
  | c :: t =>
    match extractId t with
    | some id => some id
    | none => if c = '>' then lastEllipsisCapture t else none

/-- The prefix of `s` up to the *first* occurrence of `...`, if any. -/
def firstEllipsisCapture : List Char → Option (List Char)
  | [] => none
  | c :: t =>
    if startsDots3 (c :: t) then some []
    else (firstEllipsisCapture t).map (c :: ·)

/-- Extraction following the claim's words (for comparison with
`extractId`): the characters between the last `>` of the line that is
followed by `...`, and the *first* `...` after it. -/
def specExtractId : List Char → Option (List Char)
  | [] => none
  | c :: t =>
    match specExtractId t with
    | some id => some id
    | none => if c = '>' then firstEllipsisCapture t else none

/-! ## The representative selector `pluck_best_read_from_cluster` -/

/-- Lexicographic sort key used for the index sort: Rust's
`idxs.sort_by(|&i,&j| scores[i].partial_cmp(&scores[j]).unwrap())` is a
*stable* sort by score, which is exactly a sort by the key
`(score, original index)`. -/
def keyLe (scores : List ℚ) (i j : Nat) : Prop :=
  scores.getD i 0 < scores.getD j 0 ∨
    (scores.getD i 0 = scores.getD j 0 ∧ i ≤ j)

instance keyLe.decRel (scores : List ℚ) : DecidableRel (keyLe scores) := by
  intro i j
  unfold keyLe
  infer_instance

instance keyLe.isTotal (scores : List ℚ) : IsTotal Nat (keyLe scores) := by
  constructor
  intro i j
  rcases lt_trichotomy (scores.getD i 0) (scores.getD j 0) with h | h | h
  · exact Or.inl (Or.inl h)
  · rcases Nat.le_total i j with hij | hij
    · exact Or.inl (Or.inr ⟨h, hij⟩)
    · exact Or.inr (Or.inr ⟨h.symm, hij⟩)
  · exact Or.inr (Or.inl h)

instance keyLe.isTrans (scores : List ℚ) : IsTrans Nat (keyLe scores) := by
  constructor
  intro i j k hij hjk
  rcases hij with h1 | ⟨h1, h1'⟩
  · rcases hjk with h2 | ⟨h2, _⟩
    · exact Or.inl (h1.trans h2)
    · exact Or.inl (h2 ▸ h1)
  · rcases hjk with h2 | ⟨h2, h2'⟩
    · exact Or.inl (h1 ▸ h2)
    · exact Or.inr ⟨h1.trans h2, h1'.trans h2'⟩

/-- The sorted index list: `(0..n).collect()` sorted stably by score. -/
def sortIdx (scores : List ℚ) (l : List Nat) : List Nat :=
  List.insertionSort (keyLe scores) l

/-- One step of `max_by_key`: combine the current element `x` with the
best of the rest (`x` wins only when strictly greater, so that among
equals the element later in iteration order is kept, as in Rust). -/
def maxByKeyStep {α : Type} (key : α → Nat) (x : α) : Option α → α
  | none => x
  | some y => if key y < key x then x else y

/-- Rust's `Iterator::max_by_key`: the maximum by key, returning the
*last* maximal element of the iteration order. -/
def maxByKey {α : Type} (key : α → Nat) : List α → Option α
  | [] => none
  | x :: xs => some (maxByKeyStep key x (maxByKey key xs))

/-- `order` is a possible iteration order of the `counts` hash map built
from `seqs`: its keys are exactly the distinct elements of `seqs`, in an
arbitrary order. -/
def ValidOrder (order seqs : List (List Nat)) : Prop :=
  order.Nodup ∧ order ⊆ seqs ∧ seqs ⊆ order

instance ValidOrder.dec (order seqs : List (List Nat)) :
    Decidable (ValidOrder order seqs) :=
  decidable_of_iff
    (order.Nodup ∧ (∀ a ∈ order, a ∈ seqs) ∧ (∀ a ∈ seqs, a ∈ order))
    (by simp [ValidOrder, List.subset_def])

/-- One valid iteration order (first-seen order of distinct sequences). -/
def canonicalOrd (cluster : List (FastqRecord × FastqRecord)) : List (List Nat) :=
  (cluster.map combinedSeq).dedup

/-- `pluck_best_read_from_cluster`: score every member, sort indices by
score (stably), group by combined sequence, take the consensus
(largest group, ties broken by the map iteration order `order`), and
return the first member in score order whose sequence equals it.
`none` models the `unwrap` panics (empty cluster / no match). -/
def pluck_best_read_from_cluster (E : Nat → ℚ) (order : List (List Nat))
    (cluster : List (FastqRecord × FastqRecord)) :
    Option (FastqRecord × FastqRecord) :=
  let scores := cluster.map (avgError E)
  let seqs := cluster.map combinedSeq
  let idxs := sortIdx scores (List.range cluster.length)
  match maxByKey (fun s => seqs.count s) order with
  | none => none
  | some consensus =>
    match idxs.find? (fun i => seqs.getD i [] == consensus) with
    | none => none
    | some i => some (cluster.getD i defaultPair)

/-! ## The cluster-file loop of `sort_fastq_by_quality` -/

/-- Mutable state of the loop over the cluster file's lines. -/
structure ParseState where
  cluster : List (FastqRecord × FastqRecord)
  clusterCount : Nat
  outputs : List (FastqRecord × FastqRecord)
deriving DecidableEq, Repr

/-- Emission done on a boundary line: a singleton cluster is passed
through unchanged, anything else goes through the selector. -/
def emitCluster (E : Nat → ℚ) (order : List (List Nat))
    (cluster : List (FastqRecord × FastqRecord)) :
    Option (FastqRecord × FastqRecord) :=
  if cluster.length = 1 then some (cluster.getD 0 defaultPair)
  else pluck_best_read_from_cluster E order cluster

/-- One iteration of the loop body, for a non-header line.  `idx1`/`idx2`
are the two FASTQ indices, `ord` gives the hash-map iteration order the
selector would see for a given cluster.  `none` models a panic. -/
def processLine (idx1 idx2 : List Char → Option FastqRecord) (E : Nat → ℚ)
    (ord : List (FastqRecord × FastqRecord) → List (List Nat))
    (st : ParseState) (line : List Char) : Option ParseState :=
  if line.head? = some '>' then
    match emitCluster E (ord st.cluster) st.cluster with
    | none => none
    | some p => some ⟨[], st.clusterCount + 1, st.outputs ++ [p]⟩
  else
    match extractId line with
    | none => some st
    | some id =>
      match idx1 id, idx2 id with
      | some r1, some r2 => some ⟨st.cluster ++ [(r1, r2)], st.clusterCount, st.outputs⟩
      | _, _ => some st

/-- The loop over the non-header lines. -/
def processLines (idx1 idx2 : List Char → Option FastqRecord) (E : Nat → ℚ)
    (ord : List (FastqRecord × FastqRecord) → List (List Nat))
    (st : ParseState) : List (List Char) → Option ParseState
  | [] => some st
  | l :: ls =>
    match processLine idx1 idx2 E ord st l with
    | none => none
    | some st' => processLines idx1 idx2 E ord st' ls

/-- The cluster-file pass of `sort_fastq_by_quality`: skip the first
line (`i == 0`) unconditionally, then run the loop.  Note that after the
loop there is no flush of the remaining `cluster`. -/
def sort_fastq_by_quality (idx1 idx2 : List Char → Option FastqRecord)
    (E : Nat → ℚ)
    (ord : List (FastqRecord × FastqRecord) → List (List Nat))
    (lines : List (List Char)) : Option ParseState :=
  match lines with
  | [] => some ⟨[], 0, []⟩
  | _ :: rest => processLines idx1 idx2 E ord ⟨[], 0, []⟩ rest

/-- Number of cluster-boundary lines in a list of lines. -/
def countBoundary (ls : List (List Char)) : Nat :=
  ls.countP (fun l => decide (l.head? = some '>'))

/-! ## Concrete data used to instantiate the theorems -/

/-- A concrete stand-in for the Phred transform (any rational-valued
per-quality error function works for the instances below). -/
def exE : Nat → ℚ := fun q => 1 / (q + 1 : ℚ)

def recA1 : FastqRecord := ⟨['i', 'd', '1'], [0], [2]⟩

def recA2 : FastqRecord := ⟨['i', 'd', '1'], [1], [3]⟩

def recB1 : FastqRecord := ⟨['i', 'd', '2'], [0], [4]⟩

def recB2 : FastqRecord := ⟨['i', 'd', '2'], [1], [5]⟩

/-- Concrete R1 index holding `id1` and `id2`. -/
def exIdx1 : List Char → Option FastqRecord := fun s =>
  if s = ['i', 'd', '1'] then some recA1
  else if s = ['i', 'd', '2'] then some recB1 else none

/-- Concrete R2 index holding `id1` and `id2`. -/
def exIdx2 : List Char → Option FastqRecord := fun s =>
  if s = ['i', 'd', '1'] then some recA2
  else if s = ['i', 'd', '2'] then some recB2 else none

def headerLine : List Char := ['h']

/-- A member line resolving to `id1`. -/
def memberLine1 : List Char := ['0', '>', 'i', 'd', '1', '.', '.', '.']

/-- A member line whose identifier `idX` is in neither index. -/
def memberLineX : List Char := ['0', '>', 'i', 'd', 'X', '.', '.', '.']

def boundaryLine : List Char := ['>', 'x']

/-- Members with sequence `[0]` (two of them) and `[7]` (one); the first
has the best quality among the `[0]` group. -/
def pA1 : FastqRecord × FastqRecord := (⟨['1'], [0], [5]⟩, ⟨['1'], [], []⟩)

def pA2 : FastqRecord × FastqRecord := (⟨['2'], [0], [1]⟩, ⟨['2'], [], []⟩)

def pB3 : FastqRecord × FastqRecord := (⟨['3'], [7], [0]⟩, ⟨['3'], [], []⟩)

/-- Members for the tie-break instance: equal qualities throughout, two
members with sequence `[0]` and one with `[9]`. -/
def pT1 : FastqRecord × FastqRecord := (⟨['1'], [0], [4]⟩, ⟨['1'], [], []⟩)

def pT2 : FastqRecord × FastqRecord := (⟨['2'], [0], [4]⟩, ⟨['2'], [], []⟩)

def pT3 : FastqRecord × FastqRecord := (⟨['3'], [9], [4]⟩, ⟨['3'], [], []⟩)

/-! ## Helper lemmas -/

theorem keyLe_refl (scores : List ℚ) (i : Nat) : keyLe scores i i :=
  Or.inr ⟨rfl, le_refl i⟩

theorem keyLe_antisymm {scores : List ℚ} {i j : Nat}
    (h1 : keyLe scores i j) (h2 : keyLe scores j i) : i = j := by
  rcases h1 with h1 | ⟨h1, h1'⟩ <;> rcases h2 with h2 | ⟨h2, h2'⟩
  · exact absurd (h1.trans h2) (lt_irrefl _)
  · exact absurd h1 (h2 ▸ lt_irrefl _)
  · exact absurd h2 (h1 ▸ lt_irrefl _)
  · exact Nat.le_antisymm h1' h2'

theorem canonicalOrd_valid (cluster : List (FastqRecord × FastqRecord)) :
    ValidOrder (canonicalOrd cluster) (cluster.map combinedSeq) :=
  ⟨List.nodup_dedup _, List.dedup_subset _, List.subset_dedup _⟩

theorem maxByKey_mem {α : Type} {key : α → Nat} :
    ∀ {l : List α} {x : α}, maxByKey key l = some x → x ∈ l := by
  intro l
  induction l with
  | nil => intro x h; simp [maxByKey] at h
  | cons a t ih =>
    intro x h
    simp only [maxByKey, Option.some_inj] at h
    rcases hm : maxByKey key t with _ | y <;> rw [hm] at h
    · simp only [maxByKeyStep] at h
      exact h ▸ List.mem_cons_self a t
    · simp only [maxByKeyStep] at h
      by_cases hk : key y < key a
      · rw [if_pos hk] at h
        exact h ▸ List.mem_cons_self a t
      · rw [if_neg hk] at h
        exact h ▸ List.mem_cons_of_mem a (ih hm)

theorem maxByKey_le {α : Type} {key : α → Nat} :
    ∀ {l : List α} {x : α}, maxByKey key l = some x →
      ∀ y ∈ l, key y ≤ key x := by
  intro l
  induction l with
  | nil => intro x h; simp [maxByKey] at h
  | cons a t ih =>
    intro x h y hy
    simp only [maxByKey, Option.some_inj] at h
    rcases hm : maxByKey key t with _ | z <;> rw [hm] at h <;>
      simp only [maxByKeyStep] at h
    · rcases List.mem_cons.mp hy with rfl | hyt
      · exact le_of_eq (congrArg key h)
      · cases t with
        | nil => cases hyt
        | cons b u => simp [maxByKey] at hm
    · by_cases hk : key z < key a
      · rw [if_pos hk] at h
        subst h
        rcases List.mem_cons.mp hy with rfl | hyt
        · exact le_refl _
        · exact le_of_lt (lt_of_le_of_lt (ih hm y hyt) hk)
      · rw [if_neg hk] at h
        subst h
        rcases List.mem_cons.mp hy with rfl | hyt
        · exact le_of_not_lt hk
        · exact ih hm y hyt

theorem maxByKey_isSome {α : Type} {key : α → Nat} {l : List α}
    (h : l ≠ []) : ∃ x, maxByKey key l = some x := by
  cases l with
  | nil => exact absurd rfl h
  | cons a t => exact ⟨_, rfl⟩

/-- With a valid iteration order and a strictly dominant sequence `s`,
`max_by_key` picks `s` regardless of the order. -/
theorem maxByKey_of_strict_max {order seqs : List (List Nat)} {s : List Nat}
    (ho : ValidOrder order seqs) (hs : s ∈ seqs)
    (hmax : ∀ t ∈ seqs, t ≠ s → seqs.count t < seqs.count s) :
    maxByKey (fun t => seqs.count t) order = some s := by
  obtain ⟨-, hos, hso⟩ := ho
  obtain ⟨x, hx⟩ := @maxByKey_isSome _ (fun t => seqs.count t) order
    (fun he => by rw [he] at hso; exact absurd (hso hs) (List.not_mem_nil s))
  have hxmem : x ∈ seqs := hos (maxByKey_mem hx)
  by_cases hxs : x = s
  · exact hxs ▸ hx
  · have h1 : seqs.count x < seqs.count s := hmax x hxmem hxs
    have h2 : seqs.count s ≤ seqs.count x := maxByKey_le hx s (hso hs)
    exact absurd (lt_of_le_of_lt h2 h1) (lt_irrefl _)

theorem find?_isSome_of_mem {α : Type} {p : α → Bool} :
    ∀ {l : List α} {x : α}, x ∈ l → p x = true → ∃ y, l.find? p = some y := by
  intro l
  induction l with
  | nil => intro x hx; cases hx
  | cons a t ih =>
    intro x hx hp
    by_cases hpa : p a
    · exact ⟨a, by simp [List.find?_cons, hpa]⟩
    · rcases List.mem_cons.mp hx with rfl | hxt
      · exact absurd hp (by simpa using hpa)
      · obtain ⟨y, hy⟩ := ih hxt hp
        exact ⟨y, by simp only [List.find?_cons]; rw [Bool.of_not_eq_true hpa]; exact hy⟩

/-- In a list that is pairwise ordered by a reflexive relation `r`,
`find?` returns an element that is `r`-below every element satisfying
the predicate. -/
theorem find?_pairwise_min {α : Type} {r : α → α → Prop}
    (hrefl : ∀ a, r a a) :
    ∀ {l : List α}, l.Pairwise r → ∀ {p : α → Bool} {x : α},
      l.find? p = some x → p x = true ∧ ∀ y ∈ l, p y = true → r x y := by
  intro l
  induction l with
  | nil => intro _ p x h; simp at h
  | cons a t ih =>
    intro hpw p x h
    have hpw' := List.pairwise_cons.mp hpw
    by_cases hpa : p a
    · rw [List.find?_cons, hpa] at h
      obtain rfl : a = x := Option.some_inj.mp h
      refine ⟨hpa, ?_⟩
      intro y hy _
      rcases List.mem_cons.mp hy with rfl | hyt
      · exact hrefl y
      · exact hpw'.1 y hyt
    · rw [List.find?_cons, Bool.of_not_eq_true hpa] at h
      obtain ⟨hpx, hmin⟩ := ih hpw'.2 h
      refine ⟨hpx, ?_⟩
      intro y hy hpy
      rcases List.mem_cons.mp hy with rfl | hyt
      · exact absurd hpy (by simpa using hpa)
      · exact hmin y hyt hpy

theorem map_getD_of_lt {α β : Type} (f : α → β) (l : List α) (d : α)
    (d' : β) {i : Nat} (h : i < l.length) :
    (l.map f).getD i d' = f (l.getD i d) := by
  rw [List.getD_eq_getElem _ _ (by simpa using h), List.getD_eq_getElem _ _ h,
    List.getElem_map]

/-- Core description of the selector once the consensus is fixed: it
returns the member at the index that minimises `(score, index)`
lexicographically among the members agreeing with the consensus. -/
theorem pluck_of_consensus {E : Nat → ℚ} {order : List (List Nat)}
    {cluster : List (FastqRecord × FastqRecord)} {c : List Nat}
    (hc : maxByKey (fun t => (cluster.map combinedSeq).count t) order = some c)
    (hcs : c ∈ cluster.map combinedSeq) :
    ∃ i, i < cluster.length ∧
      pluck_best_read_from_cluster E order cluster =
        some (cluster.getD i defaultPair) ∧
      combinedSeq (cluster.getD i defaultPair) = c ∧
      ∀ k, k < cluster.length → combinedSeq (cluster.getD k defaultPair) = c →
        keyLe (cluster.map (avgError E)) i k := by
  obtain ⟨k0, hk0lt, hk0⟩ := List.mem_iff_getElem.mp hcs
  have hk0n : k0 < cluster.length := by simpa using hk0lt
  have hk0idx : k0 ∈ sortIdx (cluster.map (avgError E)) (List.range cluster.length) := by
    unfold sortIdx
    exact (List.mem_insertionSort _).mpr (List.mem_range.mpr hk0n)
  have hk0p : ((cluster.map combinedSeq).getD k0 [] == c) = true := by
    rw [List.getD_eq_getElem _ _ hk0lt, hk0]
    exact beq_self_eq_true c
  obtain ⟨i, hi⟩ := find?_isSome_of_mem
    (p := fun j => (cluster.map combinedSeq).getD j [] == c) hk0idx hk0p
  have hsorted : (sortIdx (cluster.map (avgError E)) (List.range cluster.length)).Pairwise
      (keyLe (cluster.map (avgError E))) := by
    unfold sortIdx
    exact List.sorted_insertionSort _ _
  obtain ⟨hip, hmin⟩ := find?_pairwise_min (keyLe_refl _) hsorted hi
  have hiidx := List.mem_of_find?_eq_some hi
  have hin : i < cluster.length := by
    unfold sortIdx at hiidx
    exact List.mem_range.mp ((List.mem_insertionSort _).mp hiidx)
  refine ⟨i, hin, ?_, ?_, ?_⟩
  · simp only [pluck_best_read_from_cluster, hc, hi]
  · have := (beq_iff_eq).mp hip
    rwa [map_getD_of_lt combinedSeq cluster defaultPair [] hin] at this
  · intro k hk hkc
    have hkidx : k ∈ sortIdx (cluster.map (avgError E)) (List.range cluster.length) := by
      unfold sortIdx
      exact (List.mem_insertionSort _).mpr (List.mem_range.mpr hk)
    have hkp : ((cluster.map combinedSeq).getD k [] == c) = true := by
      rw [map_getD_of_lt combinedSeq cluster defaultPair [] hk]
      exact beq_iff_eq.mpr hkc
    exact hmin k hkidx hkp

/-- With a nonempty cluster and a genuine iteration order, the selector
always succeeds: the consensus is one of the members' sequences, so the
final search finds a member. -/
theorem pluck_isSome {E : Nat → ℚ} {order : List (List Nat)}
    {cluster : List (FastqRecord × FastqRecord)}
    (hne : cluster ≠ [])
    (ho : ValidOrder order (cluster.map combinedSeq)) :
    ∃ p, pluck_best_read_from_cluster E order cluster = some p := by
  obtain ⟨-, hos, hso⟩ := ho
  have hseqs : cluster.map combinedSeq ≠ [] := by
    cases cluster with
    | nil => exact absurd rfl hne
    | cons a t => simp
  obtain ⟨t0, ht0⟩ := List.exists_mem_of_ne_nil _ hseqs
  have hordne : order ≠ [] := by
    intro he
    rw [he] at hso
    exact absurd (hso ht0) (List.not_mem_nil t0)
  obtain ⟨c, hc⟩ := @maxByKey_isSome _
    (fun t => (cluster.map combinedSeq).count t) order hordne
  have hcs : c ∈ cluster.map combinedSeq := hos (maxByKey_mem hc)
  obtain ⟨i, -, hpl, -, -⟩ := pluck_of_consensus (E := E) hc hcs
  exact ⟨_, hpl⟩

/-- Bridge: the score list entry at a valid index is the member's
average error. -/
theorem scores_getD {E : Nat → ℚ} {cluster : List (FastqRecord × FastqRecord)}
    {i : Nat} (h : i < cluster.length) :
    (cluster.map (avgError E)).getD i 0 = avgError E (cluster.getD i defaultPair) :=
  map_getD_of_lt (avgError E) cluster defaultPair 0 h

/-- Selector description under a strictly dominant consensus sequence:
consensus selection is independent of the hash-map iteration order. -/
theorem pluck_of_strict_max {E : Nat → ℚ} {order : List (List Nat)}
    {cluster : List (FastqRecord × FastqRecord)} {s : List Nat}
    (ho : ValidOrder order (cluster.map combinedSeq))
    (hs : s ∈ cluster.map combinedSeq)
    (hmax : ∀ t ∈ cluster.map combinedSeq, t ≠ s →
      (cluster.map combinedSeq).count t < (cluster.map combinedSeq).count s) :
    ∃ i, i < cluster.length ∧
      pluck_best_read_from_cluster E order cluster =
        some (cluster.getD i defaultPair) ∧
      combinedSeq (cluster.getD i defaultPair) = s ∧
      ∀ k, k < cluster.length → combinedSeq (cluster.getD k defaultPair) = s →
        keyLe (cluster.map (avgError E)) i k :=
  pluck_of_consensus (maxByKey_of_strict_max ho hs hmax) hs

theorem lastEllipsisCapture_of_no_ellipsis :
    ∀ {s : List Char}, hasEllipsis s = false → lastEllipsisCapture s = none := by
  intro s
  induction s with
  | nil => intro _; rfl
  | cons c t ih =>
    intro h
    simp only [hasEllipsis, Bool.or_eq_false_iff] at h
    simp only [lastEllipsisCapture, ih h.2, h.1]
    simp

theorem lastEllipsisCapture_append {b : List Char}
    (hb : hasEllipsis ('.' :: '.' :: b) = false) :
    ∀ (s : List Char),
      lastEllipsisCapture (s ++ '.' :: '.' :: '.' :: b) = some s := by
  intro s
  induction s with
  | nil =>
    have h2 : lastEllipsisCapture ('.' :: '.' :: b) = none :=
      lastEllipsisCapture_of_no_ellipsis hb
    show lastEllipsisCapture ('.' :: '.' :: '.' :: b) = some []
    rw [show lastEllipsisCapture ('.' :: '.' :: '.' :: b) =
      match lastEllipsisCapture ('.' :: '.' :: b) with
      | some cap => some ('.' :: cap)
      | none => if startsDots3 ('.' :: '.' :: '.' :: b) = true then some [] else none
      from rfl, h2]
    rfl
  | cons c t ih =>
    simp only [List.cons_append, lastEllipsisCapture, List.append_eq, ih]

/-- Shape characterisation of the extraction: on a line
`a ++ ">" ++ s ++ "..." ++ b` where the shown `...` is the last one and
no later `>`-with-`...` exists in the suffix, the capture is exactly
`s`. -/
theorem extractId_shape {b s : List Char}
    (hb : hasEllipsis ('.' :: '.' :: b) = false)
    (hsuf : extractId (s ++ '.' :: '.' :: '.' :: b) = none) :
    ∀ a : List Char,
      extractId (a ++ '>' :: (s ++ '.' :: '.' :: '.' :: b)) = some s := by
  intro a
  induction a with
  | nil =>
    show extractId ('>' :: (s ++ '.' :: '.' :: '.' :: b)) = some s
    rw [show extractId ('>' :: (s ++ '.' :: '.' :: '.' :: b)) =
      match extractId (s ++ '.' :: '.' :: '.' :: b) with
      | some id => some id
      | none => if '>' = '>' then
          lastEllipsisCapture (s ++ '.' :: '.' :: '.' :: b) else none
      from rfl, hsuf]
    rw [show (match (none : Option (List Char)) with
      | some id => some id
      | none => if '>' = '>' then
          lastEllipsisCapture (s ++ '.' :: '.' :: '.' :: b) else none) =
      lastEllipsisCapture (s ++ '.' :: '.' :: '.' :: b) from by
        rw [if_pos rfl]]
    exact lastEllipsisCapture_append hb s
  | cons c a' ih =>
    show extractId (c :: (a' ++ '>' :: (s ++ '.' :: '.' :: '.' :: b))) = some s
    rw [show extractId (c :: (a' ++ '>' :: (s ++ '.' :: '.' :: '.' :: b))) =
      match extractId (a' ++ '>' :: (s ++ '.' :: '.' :: '.' :: b)) with
      | some id => some id
      | none => if c = '>' then
          lastEllipsisCapture (a' ++ '>' :: (s ++ '.' :: '.' :: '.' :: b))
        else none
      from rfl, ih]

/-- A successful `processLine` step changes the number of written pairs
by one exactly on a boundary line, else by zero. -/
theorem processLine_outputs_length
    {idx1 idx2 : List Char → Option FastqRecord} {E : Nat → ℚ}
    {ord : List (FastqRecord × FastqRecord) → List (List Nat)}
    {st st' : ParseState} {l : List Char}
    (h : processLine idx1 idx2 E ord st l = some st') :
    st'.outputs.length =
      st.outputs.length + (if l.head? = some '>' then 1 else 0) := by
  unfold processLine at h
  by_cases hb : l.head? = some '>'
  · rw [if_pos hb] at h
    rcases he : emitCluster E (ord st.cluster) st.cluster with _ | p <;>
      rw [he] at h
    · cases h
    · replace h : some (⟨[], st.clusterCount + 1, st.outputs ++ [p]⟩ : ParseState) =
        some st' := h
      obtain rfl := Option.some_inj.mp h
      simp [hb]
  · rw [if_neg hb] at h
    rw [if_neg hb]
    rcases hx : extractId l with _ | id <;> rw [hx] at h
    · replace h : some st = some st' := h
      obtain rfl := Option.some_inj.mp h
      simp
    · replace h : (match idx1 id, idx2 id with
        | some r1, some r2 =>
          some (⟨st.cluster ++ [(r1, r2)], st.clusterCount, st.outputs⟩ : ParseState)
        | _, _ => some st) = some st' := h
      rcases h1 : idx1 id with _ | r1 <;> rcases h2 : idx2 id with _ | r2 <;>
        rw [h1, h2] at h
      · replace h : some st = some st' := h
        obtain rfl := Option.some_inj.mp h
        simp
      · replace h : some st = some st' := h
        obtain rfl := Option.some_inj.mp h
        simp
      · replace h : some st = some st' := h
        obtain rfl := Option.some_inj.mp h
        simp
      · replace h :
          some (⟨st.cluster ++ [(r1, r2)], st.clusterCount, st.outputs⟩ : ParseState) =
            some st' := h
        obtain rfl := Option.some_inj.mp h
        simp

/-- Over any successful run of the loop, the number of written pairs
grows by exactly the number of boundary lines consumed. -/
theorem processLines_outputs_length
    {idx1 idx2 : List Char → Option FastqRecord} {E : Nat → ℚ}
    {ord : List (FastqRecord × FastqRecord) → List (List Nat)} :
    ∀ {ls : List (List Char)} {st st' : ParseState},
      processLines idx1 idx2 E ord st ls = some st' →
      st'.outputs.length = st.outputs.length + countBoundary ls := by
  intro ls
  induction ls with
  | nil =>
    intro st st' h
    obtain rfl : st = st' := Option.some_inj.mp h
    simp [countBoundary]
  | cons l t ih =>
    intro st st' h
    unfold processLines at h
    rcases hp : processLine idx1 idx2 E ord st l with _ | st1 <;> rw [hp] at h
    · cases h
    · have h1 := processLine_outputs_length hp
      have h2 := ih h
      rw [h2, h1]
      simp only [countBoundary, List.countP_cons, decide_eq_true_eq]
      by_cases hb : l.head? = some '>' <;> simp [hb]
      omega

/-! ## Claim theorems -/

/-- C1: the spec says the final `current_cluster` is flushed at end of
input as if a boundary line had been seen.  The code has no such flush:
on this input the final cluster holds one fully resolved member, yet
nothing is written to the outputs — the last cluster is silently
dropped.  This contradicts the spec's stated intent (a data-loss bug in
the code). -/
theorem C1_final_cluster_dropped_at_eof :
    ∃ st, sort_fastq_by_quality exIdx1 exIdx2 exE canonicalOrd
        [headerLine, memberLine1] = some st ∧
      st.cluster = [(recA1, recA2)] ∧ st.outputs = [] :=
  ⟨⟨[(recA1, recA2)], 0, []⟩, by decide, rfl, rfl⟩

/-- C2 counterexample: the claim says a boundary line seen while the
current cluster is empty contributes a degenerate emission and does not
abort the run.  In the code, the boundary line `">x"` with an empty
cluster reaches `counts.into_iter().max_by_key(..).unwrap()` on an
empty map and panics (modelled as `none`): the run aborts and nothing
is written. -/
theorem C2_empty_cluster_boundary_aborts :
    sort_fastq_by_quality exIdx1 exIdx2 exE canonicalOrd
      [headerLine, boundaryLine] = none := by
  decide

/-- C2 (amended): whenever the run completes without panicking, the
number of record pairs written equals the number of boundary lines
after the header.  (There is no end-of-file flush, and an empty cluster
at a boundary panics rather than producing a degenerate emission.) -/
theorem C2_outputs_eq_boundary_lines
    {idx1 idx2 : List Char → Option FastqRecord} {E : Nat → ℚ}
    {ord : List (FastqRecord × FastqRecord) → List (List Nat)}
    {lines : List (List Char)} {st : ParseState}
    (h : sort_fastq_by_quality idx1 idx2 E ord lines = some st) :
    st.outputs.length = countBoundary lines.tail := by
  cases lines with
  | nil =>
    unfold sort_fastq_by_quality at h
    obtain rfl := Option.some_inj.mp h
    simp [countBoundary]
  | cons l rest =>
    unfold sort_fastq_by_quality at h
    have := processLines_outputs_length h
    simpa using this

/-- C2 witness: a run with one member line and one boundary line writes
exactly one pair, matching the boundary count of the lines after the
header. -/
theorem C2_outputs_eq_boundary_lines_witness :
    (⟨[], 1, [(recA1, recA2)]⟩ : ParseState).outputs.length =
      countBoundary [memberLine1, boundaryLine] :=
  @C2_outputs_eq_boundary_lines exIdx1 exIdx2 exE canonicalOrd
    [headerLine, memberLine1, boundaryLine] ⟨[], 1, [(recA1, recA2)]⟩ (by decide)

/-- C5: a cluster with exactly one member is passed through unchanged by
the emission step (the `cluster.len() == 1` branch returns
`cluster[0].clone()` and never calls the selector, so no scoring
happens and the pair is byte-for-byte the stored one). -/
theorem C5_singleton_passthrough (E : Nat → ℚ) (order : List (List Nat))
    (p : FastqRecord × FastqRecord) :
    emitCluster E order [p] = some p := by
  simp [emitCluster]

/-- C9: for a nonempty cluster (and a genuine hash-map iteration order)
the search for a member matching the computed consensus always
succeeds, so the failure branch behind the final `unwrap` is
unreachable: the selector returns a value instead of panicking. -/
theorem C9_consensus_search_succeeds {E : Nat → ℚ}
    {order : List (List Nat)} {cluster : List (FastqRecord × FastqRecord)}
    (hne : cluster ≠ [])
    (ho : ValidOrder order (cluster.map combinedSeq)) :
    (pluck_best_read_from_cluster E order cluster).isSome = true := by
  obtain ⟨p, hp⟩ := pluck_isSome hne ho
  rw [hp]
  rfl

/-- C9 witness: on the concrete singleton cluster the selector returns a
value. -/
theorem C9_consensus_search_succeeds_witness :
    (pluck_best_read_from_cluster exE [[0]] [pA1]).isSome = true :=
  @C9_consensus_search_succeeds exE [[0]] [pA1] (by decide) (by decide)

/-- C3: for a cluster (of at least two members) whose consensus sequence
`s` strictly dominates every other sequence group, the selector returns
a member that agrees with the consensus and whose average error
probability is minimal among the agreeing members — not the best member
overall. -/
theorem C3_consensus_member_best_quality {E : Nat → ℚ}
    {order : List (List Nat)} {cluster : List (FastqRecord × FastqRecord)}
    {s : List Nat}
    (_hn : 2 ≤ cluster.length)
    (ho : ValidOrder order (cluster.map combinedSeq))
    (hs : s ∈ cluster.map combinedSeq)
    (hmax : ∀ t ∈ cluster.map combinedSeq, t ≠ s →
      (cluster.map combinedSeq).count t < (cluster.map combinedSeq).count s) :
    ∃ p, pluck_best_read_from_cluster E order cluster = some p ∧
      combinedSeq p = s ∧
      ∀ q ∈ cluster, combinedSeq q = s → avgError E p ≤ avgError E q := by
  obtain ⟨i, hin, hpl, hseq, hmin⟩ := pluck_of_strict_max ho hs hmax
  refine ⟨_, hpl, hseq, ?_⟩
  intro q hq hqs
  obtain ⟨k, hk, hkq⟩ := List.mem_iff_getElem.mp hq
  have hkd : cluster.getD k defaultPair = q := by
    rw [List.getD_eq_getElem _ _ hk, hkq]
  have hks : combinedSeq (cluster.getD k defaultPair) = s := by
    rw [hkd]
    exact hqs
  have hkey := hmin k hk hks
  have hsc : avgError E (cluster.getD i defaultPair) ≤
      avgError E (cluster.getD k defaultPair) := by
    rcases hkey with h | ⟨h, -⟩
    · rw [scores_getD hin, scores_getD hk] at h
      exact le_of_lt h
    · rw [scores_getD hin, scores_getD hk] at h
      exact le_of_eq h
  rwa [hkd] at hsc

/-- C3 witness: on the cluster `[pA1, pA2, pB3]` (sequences
`[[0],[0],[7]]`, so `[0]` is a strict majority) the selector returns a
`[0]`-member of minimal error among the `[0]`-members. -/
theorem C3_consensus_member_best_quality_witness :
    ∃ p, pluck_best_read_from_cluster exE [[0], [7]] [pA1, pA2, pB3] = some p ∧
      combinedSeq p = [0] ∧
      ∀ q ∈ [pA1, pA2, pB3], combinedSeq q = [0] →
        avgError exE p ≤ avgError exE q :=
  C3_consensus_member_best_quality (by decide) (by decide) (by decide) (by decide)

/-- C4: in a 3-member cluster with combined sequences `[A, A, B]`
(`A ≠ B`) whose two `A`-members have errors `e_A1 < e_A2`, the selector
returns the first `A`-member — never the `B`-member, whatever its
quality. -/
theorem C4_three_member_consensus {E : Nat → ℚ} {order : List (List Nat)}
    {p1 p2 p3 : FastqRecord × FastqRecord} {A B : List Nat}
    (h1 : combinedSeq p1 = A) (h2 : combinedSeq p2 = A)
    (h3 : combinedSeq p3 = B) (hAB : A ≠ B)
    (he : avgError E p1 < avgError E p2)
    (ho : ValidOrder order ([p1, p2, p3].map combinedSeq)) :
    pluck_best_read_from_cluster E order [p1, p2, p3] = some p1 := by
  have hs : A ∈ [p1, p2, p3].map combinedSeq := by simp [h1]
  have hmax : ∀ t ∈ [p1, p2, p3].map combinedSeq, t ≠ A →
      ([p1, p2, p3].map combinedSeq).count t <
        ([p1, p2, p3].map combinedSeq).count A := by
    intro t ht htA
    simp only [List.map_cons, List.map_nil, h1, h2, h3] at ht ⊢
    rcases List.mem_cons.mp ht with rfl | ht2
    · exact absurd rfl htA
    rcases List.mem_cons.mp ht2 with rfl | ht3
    · exact absurd rfl htA
    rcases List.mem_cons.mp ht3 with rfl | ht4
    · have e1 : List.count t [A, A, t] = 1 := by
        simp [List.count_cons, Ne.symm htA]
      have e2 : List.count A [A, A, t] = 2 := by
        simp [List.count_cons, htA]
      rw [e1, e2]
      norm_num
    · cases ht4
  obtain ⟨i, hin, hpl, hseq, hmin⟩ := pluck_of_strict_max ho hs hmax
  have hin' : i < 3 := by simpa using hin
  interval_cases i
  · exact hpl
  · have hk := hmin 0 (by norm_num) (by simpa using h1)
    rcases hk with hlt | ⟨-, hle⟩
    · rw [scores_getD (show (1 : Nat) < [p1, p2, p3].length by norm_num),
        scores_getD (show (0 : Nat) < [p1, p2, p3].length by norm_num)] at hlt
      exact absurd hlt (asymm he)
    · exact absurd hle (by norm_num)
  · have hBA : B = A := by
      rw [← h3]
      exact hseq
    exact absurd hBA (Ne.symm hAB)

/-- C4 witness: concrete `[A, A, B]` cluster with `e_A1 < e_A2`; the
selector returns the first `A`-member. -/
theorem C4_three_member_consensus_witness :
    avgError exE pA1 < avgError exE pA2 ∧
    pluck_best_read_from_cluster exE [[0], [7]] [pA1, pA2, pB3] = some pA1 :=
  ⟨by norm_num [avgError, combinedQual, pA1, pA2, exE],
   C4_three_member_consensus rfl rfl rfl (by decide)
     (by norm_num [avgError, combinedQual, pA1, pA2, exE]) (by decide)⟩

/-- C8: when the consensus group is a strict majority (and scores are
pairwise distinct), the selector's result does not depend on the
hash-map iteration order: any two valid orders give the same output, so
two runs on identical input produce identical output. -/
theorem C8_deterministic_without_ties {E : Nat → ℚ}
    {o1 o2 : List (List Nat)} {cluster : List (FastqRecord × FastqRecord)}
    {s : List Nat}
    (ho1 : ValidOrder o1 (cluster.map combinedSeq))
    (ho2 : ValidOrder o2 (cluster.map combinedSeq))
    (hs : s ∈ cluster.map combinedSeq)
    (hmax : ∀ t ∈ cluster.map combinedSeq, t ≠ s →
      (cluster.map combinedSeq).count t < (cluster.map combinedSeq).count s)
    (_hdist : (cluster.map (avgError E)).Pairwise (· ≠ ·)) :
    pluck_best_read_from_cluster E o1 cluster =
      pluck_best_read_from_cluster E o2 cluster := by
  obtain ⟨i1, hi1, hp1, hs1, hm1⟩ := pluck_of_strict_max ho1 hs hmax
  obtain ⟨i2, hi2, hp2, hs2, hm2⟩ := pluck_of_strict_max ho2 hs hmax
  have h12 := hm1 i2 hi2 hs2
  have h21 := hm2 i1 hi1 hs1
  rw [hp1, hp2, keyLe_antisymm h12 h21]

/-- C8 witness: the two possible iteration orders of the concrete
cluster's sequence groups yield identical selections. -/
theorem C8_deterministic_without_ties_witness :
    pluck_best_read_from_cluster exE [[0], [7]] [pA1, pA2, pB3] =
      pluck_best_read_from_cluster exE [[7], [0]] [pA1, pA2, pB3] :=
  @C8_deterministic_without_ties exE [[0], [7]] [[7], [0]] [pA1, pA2, pB3] [0]
    (by decide) (by decide) (by decide) (by decide)
    (by norm_num [List.pairwise_cons, avgError, combinedQual,
      pA1, pA2, pB3, exE])

/-- C10: when several consensus-agreeing members share the minimal
average error probability, the selector returns the one appearing
earliest in the cluster's member order, because the index sort by score
is stable (modelled by the lexicographic `(score, index)` key). -/
theorem C10_stable_tie_break {E : Nat → ℚ} {order : List (List Nat)}
    {cluster : List (FastqRecord × FastqRecord)} {s : List Nat} {i j : Nat}
    (ho : ValidOrder order (cluster.map combinedSeq))
    (hs : s ∈ cluster.map combinedSeq)
    (hmax : ∀ t ∈ cluster.map combinedSeq, t ≠ s →
      (cluster.map combinedSeq).count t < (cluster.map combinedSeq).count s)
    (hij : i < j) (hj : j < cluster.length)
    (hsi : combinedSeq (cluster.getD i defaultPair) = s)
    (_hsj : combinedSeq (cluster.getD j defaultPair) = s)
    (_heq : avgError E (cluster.getD i defaultPair) =
      avgError E (cluster.getD j defaultPair))
    (hmin : ∀ k, k < cluster.length →
      combinedSeq (cluster.getD k defaultPair) = s →
      avgError E (cluster.getD i defaultPair) ≤
        avgError E (cluster.getD k defaultPair))
    (hfirst : ∀ k, k < cluster.length →
      combinedSeq (cluster.getD k defaultPair) = s →
      avgError E (cluster.getD k defaultPair) =
        avgError E (cluster.getD i defaultPair) → i ≤ k) :
    pluck_best_read_from_cluster E order cluster =
      some (cluster.getD i defaultPair) := by
  have hi : i < cluster.length := lt_trans hij hj
  obtain ⟨i0, hi0, hp0, hs0, hm0⟩ := pluck_of_strict_max ho hs hmax
  have hk1 : keyLe (cluster.map (avgError E)) i0 i := hm0 i hi hsi
  have hk2 : keyLe (cluster.map (avgError E)) i i0 := by
    have hle := hmin i0 hi0 hs0
    rcases lt_or_eq_of_le hle with hlt | hq
    · exact Or.inl (by rw [scores_getD hi, scores_getD hi0]; exact hlt)
    · exact Or.inr ⟨by rw [scores_getD hi, scores_getD hi0]; exact hq,
        hfirst i0 hi0 hs0 hq.symm⟩
  rw [hp0, keyLe_antisymm hk1 hk2]

/-- C10 witness: `pT1` and `pT2` agree with the consensus `[0]` and have
exactly equal scores; the selector returns `pT1`, the earlier member. -/
theorem C10_stable_tie_break_witness :
    pluck_best_read_from_cluster exE [[0], [9]] [pT1, pT2, pT3] =
      some ([pT1, pT2, pT3].getD 0 defaultPair) :=
  @C10_stable_tie_break exE [[0], [9]] [pT1, pT2, pT3] [0] 0 1
    (by decide) (by decide) (by decide)
    (by decide) (by decide) (by decide) (by decide) rfl
    (by
      intro k hk hks
      have hk3 : k < 3 := by simpa using hk
      interval_cases k
      · exact le_refl _
      · exact le_of_eq rfl
      · exact absurd hks (by decide))
    (by
      intro k _ _ _
      exact Nat.zero_le k)

/-- C6 counterexample: the claim says the identifier is the run of
characters between the last `>` and the *first* following `...`.  On
the line `>ID...x...` that would be `ID` (computed by `specExtractId`,
which follows the claim's words), but the greedy capture of
`.*>(.*)\.\.\.` extends to the *last* `...` and the code extracts
`ID...x`. -/
theorem C6_greedy_capture_differs :
    extractId ['>', 'I', 'D', '.', '.', '.', 'x', '.', '.', '.'] =
      some ['I', 'D', '.', '.', '.', 'x'] ∧
    specExtractId ['>', 'I', 'D', '.', '.', '.', 'x', '.', '.', '.'] =
      some ['I', 'D'] ∧
    extractId ['>', 'I', 'D', '.', '.', '.', 'x', '.', '.', '.'] ≠
      specExtractId ['>', 'I', 'D', '.', '.', '.', 'x', '.', '.', '.'] :=
  ⟨by decide, by decide, by decide⟩

/-- C6 (amended): the extracted identifier is the run of characters
between the last `>` that is followed by `...` and the *last* `...`
after it (greedy regex semantics); a line from which no identifier can
be extracted is skipped and contributes no member to the cluster. -/
theorem C6_extractId_greedy_and_skip :
    (∀ a s b : List Char, hasEllipsis ('.' :: '.' :: b) = false →
      extractId (s ++ '.' :: '.' :: '.' :: b) = none →
      extractId (a ++ '>' :: (s ++ '.' :: '.' :: '.' :: b)) = some s) ∧
    (∀ (idx1 idx2 : List Char → Option FastqRecord) (E : Nat → ℚ)
      (ord : List (FastqRecord × FastqRecord) → List (List Nat))
      (st : ParseState) (l : List Char),
      l.head? ≠ some '>' → extractId l = none →
      processLine idx1 idx2 E ord st l = some st) := by
  constructor
  · intro a s b hb hsuf
    exact extractId_shape hb hsuf a
  · intro idx1 idx2 E ord st l hb hx
    unfold processLine
    rw [if_neg hb, hx]

/-- C6 witness: on `x>ID...y` the extraction yields `ID`, and the
unmatched line `z` leaves the parser state unchanged. -/
theorem C6_extractId_greedy_and_skip_witness :
    extractId (['x'] ++ '>' :: (['I', 'D'] ++ '.' :: '.' :: '.' :: ['y'])) =
      some ['I', 'D'] ∧
    processLine exIdx1 exIdx2 exE canonicalOrd ⟨[], 0, []⟩ ['z'] =
      some ⟨[], 0, []⟩ :=
  ⟨C6_extractId_greedy_and_skip.1 ['x'] ['I', 'D'] ['y'] (by decide) (by decide),
   C6_extractId_greedy_and_skip.2 exIdx1 exIdx2 exE canonicalOrd
     ⟨[], 0, []⟩ ['z'] (by decide) (by decide)⟩

/-- C7: a member line whose identifier is missing from either index is
skipped without aborting (the state, and in particular the current
cluster, is unchanged), and on the next boundary line a nonempty
cluster still produces exactly one emitted representative. -/
theorem C7_missing_id_resilience :
    (∀ (idx1 idx2 : List Char → Option FastqRecord) (E : Nat → ℚ)
      (ord : List (FastqRecord × FastqRecord) → List (List Nat))
      (st : ParseState) (l i : List Char),
      l.head? ≠ some '>' → extractId l = some i →
      idx1 i = none ∨ idx2 i = none →
      processLine idx1 idx2 E ord st l = some st) ∧
    (∀ (idx1 idx2 : List Char → Option FastqRecord) (E : Nat → ℚ)
      (ord : List (FastqRecord × FastqRecord) → List (List Nat))
      (st : ParseState) (l : List Char),
      l.head? = some '>' → st.cluster ≠ [] →
      ValidOrder (ord st.cluster) (st.cluster.map combinedSeq) →
      ∃ p, processLine idx1 idx2 E ord st l =
        some ⟨[], st.clusterCount + 1, st.outputs ++ [p]⟩) := by
  constructor
  · intro idx1 idx2 E ord st l i hb hx hmiss
    unfold processLine
    rw [if_neg hb, hx]
    change (match idx1 i, idx2 i with
      | some r1, some r2 =>
        some (⟨st.cluster ++ [(r1, r2)], st.clusterCount, st.outputs⟩ : ParseState)
      | _, _ => some st) = some st
    rcases hmiss with hm | hm
    · rw [hm]
    · rcases h1 : idx1 i with _ | r1
      · rfl
      · rw [hm]
  · intro idx1 idx2 E ord st l hb hne ho
    obtain ⟨p, hp⟩ : ∃ p, emitCluster E (ord st.cluster) st.cluster = some p := by
      unfold emitCluster
      by_cases hl : st.cluster.length = 1
      · rw [if_pos hl]
        exact ⟨_, rfl⟩
      · rw [if_neg hl]
        exact pluck_isSome hne ho
    refine ⟨p, ?_⟩
    unfold processLine
    rw [if_pos hb, hp]

/-- C7 witness: the line for the unknown identifier `idX` is skipped
with the state unchanged, and a boundary line after a nonempty cluster
still emits one representative. -/
theorem C7_missing_id_resilience_witness :
    processLine exIdx1 exIdx2 exE canonicalOrd
      ⟨[(recA1, recA2)], 0, []⟩ memberLineX =
        some ⟨[(recA1, recA2)], 0, []⟩ ∧
    ∃ p, processLine exIdx1 exIdx2 exE canonicalOrd
      ⟨[(recA1, recA2)], 0, []⟩ boundaryLine = some ⟨[], 1, [] ++ [p]⟩ :=
  ⟨C7_missing_id_resilience.1 exIdx1 exIdx2 exE canonicalOrd
     ⟨[(recA1, recA2)], 0, []⟩ memberLineX ['i', 'd', 'X']
     (by decide) (by decide) (Or.inl (by decide)),
   C7_missing_id_resilience.2 exIdx1 exIdx2 exE canonicalOrd
     ⟨[(recA1, recA2)], 0, []⟩ boundaryLine
     (by decide) (by decide) (by decide)⟩
